import Mathlib

/-!
Verification of `harmony.py`: scales and chords as interval sequences,
the chord-fitting engine (`add_chord`, `has_chord`), interval distance
(`interval_between`) and the relationship analyzer
(`chordal_relationships`).

The Python `while True` loop inside `add_chord` need not terminate when a
scale interval is non-positive, so the embedding indexes that loop by
explicit fuel and returns `none` on fuel exhaustion; lemmas below show the
fuel is irrelevant (the loop terminates) whenever the scale's intervals
are strictly positive.
-/

/-- Model of `Chord` from harmony.py: a name and a list of cumulative-offset
interval targets. -/
structure Chord where
  name : String
  intervals : List Int
deriving DecidableEq

/-- Model of `Scale` from harmony.py: a name, the cyclic interval list, and the
memoized chord dictionary (`chords`), modelled as an insertion-ordered
association list exactly like a Python dict. -/
structure Scale where
  name : String
  intervals : List Int
  chords : List (String × List Nat)
deriving DecidableEq

/-- Model of `Scale.num_notes`: the length of one cycle of the scale. -/
def Scale.num_notes (s : Scale) : Nat := s.intervals.length

/-- Python dict assignment `d[k] = v`: overwrite in place if the key is
present, else append at the end. -/
def dictSet (d : List (String × List Nat)) (k : String) (v : List Nat) :
    List (String × List Nat) :=
  if (d.lookup k).isSome then
    d.map (fun p => if p.1 = k then (k, v) else p)
  else
    d ++ [(k, v)]

/-- The inner `while True` loop of `add_chord` (harmony.py lines 111-120):
starting from running sum `acc` at scale position `i`, repeatedly add
`intervals[i]` and advance `i` cyclically; stop with `true` when the sum
equals `target`, with `false` when it strictly exceeds it.  Fuel-indexed;
returns the outcome together with the position `i` after the loop. -/
def fitLoop (ivs : List Int) (target : Int) : Nat → Nat → Int → Option (Bool × Nat)
  | 0, _, _ => none
  | fuel + 1, i, acc =>
    let acc' := acc + ivs.getD i 0
    let i' := (i + 1) % ivs.length
    if acc' = target then some (true, i')
    else if target < acc' then some (false, i')
    else fitLoop ivs target fuel i' acc'

/-- The `for current_interval in chord.intervals` loop of `add_chord`
(lines 104-120): run `fitLoop` for each target in turn, carrying the scale
position across targets and the sticky `illegal_chord` flag; returns
`not illegal_chord`. -/
def fitChordAt (ivs : List Int) (fuel : Nat) : List Int → Nat → Bool → Option Bool
  | [], _, illegal => some (!illegal)
  | t :: ts, i, illegal =>
    match fitLoop ivs t fuel i 0 with
    | none => none
    | some (ok, i') => fitChordAt ivs fuel ts i' (illegal || !ok)

/-- The `for base_note in range(0, self.num_notes())` loop of `add_chord`
(lines 97-124): collect, in order, the base notes at which the chord is
not illegal. -/
def addChordLoop (ivs : List Int) (cIvs : List Int) (fuel : Nat) :
    List Nat → Option (List Nat)
  | [] => some []
  | r :: rs =>
    match fitChordAt ivs fuel cIvs r false with
    | none => none
    | some legal =>
      match addChordLoop ivs cIvs fuel rs with
      | none => none
      | some rest => some (if legal then r :: rest else rest)

/-- Model of `Scale.add_chord` (harmony.py lines 78-126): overwrite
`chords[chord.name]` with the set of fitting base notes and return
whether any base note fits. -/
def add_chord (s : Scale) (c : Chord) (fuel : Nat) : Option (Scale × Bool) :=
  match addChordLoop s.intervals c.intervals fuel (List.range s.num_notes) with
  | none => none
  | some roots =>
      some ({ s with chords := dictSet s.chords c.name roots }, !roots.isEmpty)

/-- Model of `Scale.has_chord` (harmony.py lines 57-76): return the memoized
answer when `chord.name` is a key of `chords`, else delegate to
`add_chord`. -/
def has_chord (s : Scale) (c : Chord) (fuel : Nat) : Option (Scale × Bool) :=
  match s.chords.lookup c.name with
  | some roots => if roots.length > 0 then some (s, true) else some (s, false)
  | none => add_chord s c fuel

/-- Model of `Scale.interval_between` (harmony.py lines 128-155): swap so the
smaller index starts, then sum `hi - lo` interval steps, each index taken
modulo `num_notes`. -/
def interval_between (s : Scale) (i j : Nat) : Int :=
  let lo := if i > j then j else i
  let hi := if i > j then i else j
  (List.range (hi - lo)).foldl
    (fun acc k => acc + s.intervals.getD ((lo + k) % s.num_notes) 0) 0

/-- The eight arguments passed to `str.format` by `chordal_relationships`
(harmony.py lines 218-225): the two scale names, the chord name, both
roots printed 1-based, and the fifths, fourths and semitones figures. -/
structure RelArgs where
  scale_1 : String
  scale_2 : String
  chord : String
  root_1 : Nat
  root_2 : Nat
  fifths : Int
  fourths : Int
  semitones : Int
deriving DecidableEq

/-- The body of the doubly nested loop of `chordal_relationships`
(lines 214-225): both distances are computed on `scale_1`
(`dist_2` uses `root_2` even though it came from `scale_2`), the roots
are printed 1-based, and the semitones figure `key_distance % 12` is the
eighth argument handed to the formatter. -/
def mkRelArgs (s1 s2 : Scale) (c : Chord) (r1 r2 : Nat) : RelArgs :=
  let dist_1 := interval_between s1 0 r1
  let dist_2 := interval_between s1 0 r2
  let key_distance := dist_2 - dist_1
  { scale_1 := s1.name
    scale_2 := s2.name
    chord := c.name
    root_1 := r1 + 1
    root_2 := r2 + 1
    fifths := (key_distance * 7) % 12
    fourths := (12 - ((key_distance * 7) % 12)) % 12
    semitones := key_distance % 12 }

/-- One relationship record as actually printed (harmony.py line 217):
the format string holds the placeholders 0 through 6 only -- its tail
reads "... is x fifths right, or y fourths left or, or semitones
right" -- so the rendered line carries the scale names, the chord name,
the 1-based roots and the fifths and fourths figures, and nothing else. -/
structure RelRecord where
  scale_1 : String
  scale_2 : String
  chord : String
  root_1 : Nat
  root_2 : Nat
  fifths : Int
  fourths : Int
deriving DecidableEq

/-- Rendering of the printed record from the format arguments: arguments
0 through 6 are substituted; the eighth argument (the semitones figure)
has no placeholder and is silently dropped by `str.format`. -/
def renderRel (a : RelArgs) : RelRecord :=
  { scale_1 := a.scale_1
    scale_2 := a.scale_2
    chord := a.chord
    root_1 := a.root_1
    root_2 := a.root_2
    fifths := a.fifths
    fourths := a.fourths }

/-- Model of `chordal_relationships` (harmony.py lines 209-229): when both scales
have the chord (checked with short-circuiting `has_chord`, which may
memoize), emit one record per ordered pair of fitting roots and
accumulate the fifths figures into a set; otherwise emit nothing.  The
result carries both (possibly updated) scales, the emitted records and
the reachable fifths set. -/
def chordal_relationships (s1 s2 : Scale) (c : Chord) (fuel : Nat) :
    Option (Scale × Scale × List RelRecord × Finset Int) :=
  match has_chord s1 c fuel with
  | none => none
  | some (s1', b1) =>
    if b1 then
      match has_chord s2 c fuel with
      | none => none
      | some (s2', b2) =>
        if b2 then
          let roots1 := (s1'.chords.lookup c.name).getD []
          let roots2 := (s2'.chords.lookup c.name).getD []
          let pairs := roots1.flatMap (fun r1 => roots2.map (fun r2 => mkRelArgs s1' s2' c r1 r2))
          some (s1', s2', pairs.map renderRel, (pairs.map RelArgs.fifths).toFinset)
        else some (s1', s2', [], ∅)
    else some (s1', s2, [], ∅)

/-- The records emitted by a `chordal_relationships` run (`[]` when the
run diverged or emitted none). -/
def recsOf (o : Option (Scale × Scale × List RelRecord × Finset Int)) :
    List RelRecord :=
  (o.map (fun x => x.2.2.1)).getD []

/-- The reachable fifths set of a `chordal_relationships` run. -/
def fifthsSetOf (o : Option (Scale × Scale × List RelRecord × Finset Int)) :
    Finset Int :=
  (o.map (fun x => x.2.2.2)).getD ∅

/-- The scale and chord literals of harmony.py lines 188-198. -/
def major_scale : Scale := ⟨"Major", [2, 2, 1, 2, 2, 2, 1], []⟩

def minor_scale : Scale := ⟨"Minor", [2, 1, 2, 2, 1, 2, 2], []⟩

def melodic_minor : Scale := ⟨"Melodic Minor", [2, 1, 2, 2, 1, 3, 1], []⟩

def harmonic_minor : Scale := ⟨"Harmonic Minor", [2, 1, 2, 2, 2, 2, 1], []⟩

def major_chord : Chord := ⟨"Major", [4, 3]⟩

def minor_chord : Chord := ⟨"Minor", [3, 4]⟩

def dim_chord : Chord := ⟨"Diminished", [3, 3]⟩

def aug_chord : Chord := ⟨"Augmented", [4, 4]⟩

def sus2_chord : Chord := ⟨"Sus2", [2, 5]⟩

def sus4_chord : Chord := ⟨"Sus4", [5, 2]⟩

/-- The root-trial walk exactly as the spec words it: for each target in
turn keep accumulating from the current degree, reset the running sum
after a match, and abort the root as soon as a running sum strictly
exceeds its target before equalling it. -/
def specFits (ivs : List Int) (fuel : Nat) : List Int → Nat → Option Bool
  | [], _ => some true
  | t :: ts, i =>
    match fitLoop ivs t fuel i 0 with
    | none => none
    | some (true, i') => specFits ivs fuel ts i'
    | some (false, _) => some false

/-- The set (as the ordered list of degrees in `[0, N)`) at which the
spec's walk accepts the chord. -/
def specRoots (s : Scale) (c : Chord) (fuel : Nat) : List Nat :=
  (List.range s.num_notes).filter
    (fun r => decide (specFits s.intervals fuel c.intervals r = some true))

/-- The set of pairwise differences among `xs`, scaled by 7 modulo 12. -/
def pairwiseFifths (xs : List Int) : Finset Int :=
  (xs.flatMap (fun a => xs.map (fun b => ((a - b) * 7) % 12))).toFinset

/-! ### Lemmas about the chord-fitting loops -/

theorem fitLoop_pos_lt (ivs : List Int) (t : Int) :
    ∀ (fuel i : Nat) (acc : Int) (b : Bool) (i' : Nat),
      fitLoop ivs t fuel i acc = some (b, i') → 0 < ivs.length →
      i' < ivs.length := by
  intro fuel
  induction fuel with
  | zero => intro i acc b i' h _; simp [fitLoop] at h
  | succ n ih =>
      intro i acc b i' h hlen
      unfold fitLoop at h
      by_cases h1 : acc + ivs.getD i 0 = t
      · simp only [h1, if_pos rfl] at h
        obtain ⟨-, h2⟩ := Prod.mk.injEq .. ▸ Option.some.injEq .. ▸ h
        exact h2 ▸ Nat.mod_lt _ hlen
      · by_cases h2 : t < acc + ivs.getD i 0
        · simp only [if_neg h1, if_pos h2] at h
          obtain ⟨-, h3⟩ := Prod.mk.injEq .. ▸ Option.some.injEq .. ▸ h
          exact h3 ▸ Nat.mod_lt _ hlen
        · simp only [if_neg h1, if_neg h2] at h
          exact ih _ _ _ _ h hlen

theorem fitLoop_isSome (ivs : List Int) (hpos : ∀ x ∈ ivs, 0 < x) (t : Int) :
    ∀ (fuel i : Nat) (acc : Int), i < ivs.length → (t - acc).toNat < fuel →
      (fitLoop ivs t fuel i acc).isSome := by
  intro fuel
  induction fuel with
  | zero => intro i acc _ hfuel; omega
  | succ n ih =>
      intro i acc hi hfuel
      have hv : 0 < ivs.getD i 0 := by
        rw [List.getD_eq_getElem ivs 0 hi]
        exact hpos _ (List.getElem_mem hi)
      unfold fitLoop
      by_cases h1 : acc + ivs.getD i 0 = t
      · rw [if_pos h1]; rfl
      · by_cases h2 : t < acc + ivs.getD i 0
        · rw [if_neg h1, if_pos h2]; rfl
        · rw [if_neg h1, if_neg h2]
          exact ih _ _ (Nat.mod_lt _ (Nat.lt_of_le_of_lt (Nat.zero_le i) hi)) (by omega)

theorem fitChordAt_illegal (ivs : List Int) (fuel : Nat) :
    ∀ (ts : List Int) (i : Nat) (b : Bool),
      fitChordAt ivs fuel ts i true = some b → b = false := by
  intro ts
  induction ts with
  | nil => intro i b h; simpa [fitChordAt] using h.symm
  | cons t ts ih =>
      intro i b h
      unfold fitChordAt at h
      rcases hl : fitLoop ivs t fuel i 0 with - | ⟨ok, i'⟩
      · rw [hl] at h; exact absurd h (by simp)
      · rw [hl] at h
        exact ih i' b h

theorem fitChordAt_isSome (ivs : List Int) (hpos : ∀ x ∈ ivs, 0 < x) (fuel : Nat) :
    ∀ (ts : List Int) (i : Nat) (ill : Bool), i < ivs.length →
      (∀ t ∈ ts, t.toNat < fuel) → (fitChordAt ivs fuel ts i ill).isSome := by
  intro ts
  induction ts with
  | nil => intro i ill _ _; simp [fitChordAt]
  | cons t ts ih =>
      intro i ill hi hfuel
      have h1 : (fitLoop ivs t fuel i 0).isSome := by
        apply fitLoop_isSome ivs hpos t fuel i 0 hi
        have := hfuel t (List.mem_cons_self t ts)
        omega
      unfold fitChordAt
      rcases hl : fitLoop ivs t fuel i 0 with - | ⟨ok, i'⟩
      · rw [hl] at h1; simp at h1
      · exact ih i' _ (fitLoop_pos_lt ivs t fuel i 0 ok i' hl (Nat.lt_of_le_of_lt (Nat.zero_le i) hi))
          (fun x hx => hfuel x (List.mem_cons_of_mem t hx))

theorem fitChordAt_eq_specFits (ivs : List Int) (fuel : Nat) :
    ∀ (ts : List Int) (i : Nat) (b : Bool),
      fitChordAt ivs fuel ts i false = some b → specFits ivs fuel ts i = some b := by
  intro ts
  induction ts with
  | nil => intro i b h; simpa [fitChordAt, specFits] using h
  | cons t ts ih =>
      intro i b h
      unfold fitChordAt at h
      unfold specFits
      rcases hl : fitLoop ivs t fuel i 0 with - | ⟨ok, i'⟩
      · rw [hl] at h; exact absurd h (by simp)
      · rw [hl] at h
        cases ok with
        | true => exact ih i' b h
        | false =>
            simp only [Bool.false_or, Bool.not_false] at h
            rw [fitChordAt_illegal ivs fuel ts i' b h]

/-- The set of fitting roots computed by the code's outer loop, expressed
as a filter over the candidate degrees. -/
def codeRoots (s : Scale) (c : Chord) (fuel : Nat) : List Nat :=
  (List.range s.num_notes).filter
    (fun r => decide (fitChordAt s.intervals fuel c.intervals r false = some true))

theorem addChordLoop_eq_filter (ivs cIvs : List Int) (fuel : Nat) :
    ∀ rs : List Nat, (∀ r ∈ rs, (fitChordAt ivs fuel cIvs r false).isSome) →
      addChordLoop ivs cIvs fuel rs =
        some (rs.filter (fun r => decide (fitChordAt ivs fuel cIvs r false = some true))) := by
  intro rs
  induction rs with
  | nil => intro _; rfl
  | cons r rs ih =>
      intro h
      have h1 : (fitChordAt ivs fuel cIvs r false).isSome :=
        h r (List.mem_cons_self r rs)
      rcases hc : fitChordAt ivs fuel cIvs r false with - | legal
      · rw [hc] at h1; simp at h1
      · unfold addChordLoop
        rw [hc, ih (fun x hx => h x (List.mem_cons_of_mem r hx)), List.filter_cons, hc]
        cases legal with
        | true => simp
        | false => simp

theorem add_chord_eq (s : Scale) (c : Chord) (fuel : Nat)
    (hpos : ∀ x ∈ s.intervals, 0 < x)
    (hf : ∀ t ∈ c.intervals, t.toNat < fuel) :
    add_chord s c fuel =
      some ({ s with chords := dictSet s.chords c.name (codeRoots s c fuel) },
        !(codeRoots s c fuel).isEmpty) := by
  unfold add_chord
  rw [addChordLoop_eq_filter s.intervals c.intervals fuel (List.range s.num_notes)
    (fun r hr => fitChordAt_isSome s.intervals hpos fuel c.intervals r false
      (List.mem_range.mp hr) hf)]
  rfl

theorem codeRoots_eq_specRoots (s : Scale) (c : Chord) (fuel : Nat)
    (hpos : ∀ x ∈ s.intervals, 0 < x)
    (hf : ∀ t ∈ c.intervals, t.toNat < fuel) :
    codeRoots s c fuel = specRoots s c fuel := by
  unfold codeRoots specRoots
  apply List.filter_congr
  intro r hr
  have h1 : (fitChordAt s.intervals fuel c.intervals r false).isSome :=
    fitChordAt_isSome s.intervals hpos fuel c.intervals r false (List.mem_range.mp hr) hf
  rcases hc : fitChordAt s.intervals fuel c.intervals r false with - | b
  · rw [hc] at h1; simp at h1
  · rw [fitChordAt_eq_specFits s.intervals fuel c.intervals r b hc]

theorem lookup_dictSet (d : List (String × List Nat)) (k : String) (v : List Nat) :
    (dictSet d k v).lookup k = some v := by
  unfold dictSet
  by_cases h : (d.lookup k).isSome
  · rw [if_pos h]
    induction d with
    | nil => simp at h
    | cons p d ih =>
        by_cases hk : (k == p.1) = true
        · have : p.1 = k := (beq_iff_eq.mp hk).symm
          simp [List.lookup_cons, this]
        · rw [List.lookup_cons] at h
          simp only [List.map_cons]
          rw [if_neg (fun hh => hk (beq_iff_eq.mpr hh.symm))]
          rcases p with ⟨a, b⟩
          rw [List.lookup_cons]
          simp only at hk
          simp only [hk] at h ⊢
          exact ih h
  · rw [if_neg h]
    induction d with
    | nil => simp [List.lookup_cons]
    | cons p d ih =>
        rcases p with ⟨a, b⟩
        rw [List.lookup_cons] at h
        rw [List.cons_append, List.lookup_cons]
        by_cases hk : (k == a) = true
        · simp [hk] at h
        · simp only [hk] at h ⊢
          exact ih h

theorem add_chord_inv (s : Scale) (c : Chord) (fuel : Nat) (s' : Scale) (b : Bool)
    (h : add_chord s c fuel = some (s', b)) :
    ∃ roots, addChordLoop s.intervals c.intervals fuel (List.range s.num_notes) = some roots ∧
      s' = { s with chords := dictSet s.chords c.name roots } ∧ b = !roots.isEmpty := by
  unfold add_chord at h
  rcases ha : addChordLoop s.intervals c.intervals fuel (List.range s.num_notes) with - | roots
  · rw [ha] at h; exact absurd h (by simp)
  · rw [ha] at h
    simp only [Option.some.injEq, Prod.mk.injEq] at h
    exact ⟨roots, rfl, h.1.symm, h.2.symm⟩

theorem add_chord_intervals (s : Scale) (c : Chord) (fuel : Nat) (s' : Scale) (b : Bool)
    (h : add_chord s c fuel = some (s', b)) : s'.intervals = s.intervals := by
  obtain ⟨roots, -, h1, -⟩ := add_chord_inv s c fuel s' b h
  rw [h1]

theorem has_chord_intervals (s : Scale) (c : Chord) (fuel : Nat) (s' : Scale) (b : Bool)
    (h : has_chord s c fuel = some (s', b)) : s'.intervals = s.intervals := by
  unfold has_chord at h
  rcases hl : s.chords.lookup c.name with - | roots
  · rw [hl] at h; exact add_chord_intervals s c fuel s' b h
  · rw [hl] at h
    replace h : (if roots.length > 0 then some (s, true) else some (s, false)) =
        some (s', b) := h
    by_cases hr : roots.length > 0
    · rw [if_pos hr] at h
      simp only [Option.some.injEq, Prod.mk.injEq] at h
      rw [← h.1]
    · rw [if_neg hr] at h
      simp only [Option.some.injEq, Prod.mk.injEq] at h
      rw [← h.1]

theorem interval_between_congr (s s' : Scale) (h : s.intervals = s'.intervals) (i j : Nat) :
    interval_between s i j = interval_between s' i j := by
  unfold interval_between Scale.num_notes
  rw [h]

/-! ### Summation lemmas for interval_between -/

theorem foldl_add_range (f : Nat → Int) :
    ∀ (n : Nat) (a : Int),
      (List.range n).foldl (fun acc k => acc + f k) a = a + ∑ k ∈ Finset.range n, f k := by
  intro n
  induction n with
  | zero => intro a; simp
  | succ m ih =>
      intro a
      rw [List.range_succ, List.foldl_append, ih, Finset.sum_range_succ]
      simp [add_assoc]

theorem getD_range_sum (l : List Int) :
    ∑ k ∈ Finset.range l.length, l.getD k 0 = l.sum := by
  induction l with
  | nil => simp
  | cons x l ih =>
      rw [List.length_cons, Finset.sum_range_succ']
      simp only [List.getD_cons_succ, List.getD_cons_zero]
      rw [ih, List.sum_cons, add_comm]

theorem rotate_getD_sum (l : List Int) (hn : l ≠ []) :
    ∀ i : Nat, ∑ k ∈ Finset.range l.length, l.getD ((i + k) % l.length) 0 = l.sum := by
  intro i
  induction i with
  | zero =>
      rw [← getD_range_sum l]
      apply Finset.sum_congr rfl
      intro k hk
      rw [Nat.zero_add, Nat.mod_eq_of_lt (Finset.mem_range.mp hk)]
  | succ i ih =>
      obtain ⟨m, hm⟩ : ∃ m, l.length = m + 1 := by
        rcases l with - | ⟨x, l⟩
        · exact absurd rfl hn
        · exact ⟨l.length, rfl⟩
      rw [← ih, hm, Finset.sum_range_succ, Finset.sum_range_succ']
      congr 1
      · apply Finset.sum_congr rfl
        intro k hk
        have he : i + 1 + k = i + (k + 1) := by omega
        rw [he]
      · have he : i + 1 + m = i + (m + 1) := by omega
        rw [he, Nat.add_mod_right]
        simp

theorem has_chord_lookup (s : Scale) (c : Chord) (fuel : Nat) (roots : List Nat)
    (h : s.chords.lookup c.name = some roots) :
    has_chord s c fuel = some (s, decide (roots.length > 0)) := by
  unfold has_chord
  rw [h]
  show (if roots.length > 0 then some (s, true) else some (s, false)) = _
  by_cases hr : roots.length > 0
  · rw [if_pos hr]; simp [hr]
  · rw [if_neg hr]; simp [hr]

theorem has_chord_of_none (s : Scale) (c : Chord) (fuel : Nat)
    (h : s.chords.lookup c.name = none) :
    has_chord s c fuel = add_chord s c fuel := by
  unfold has_chord
  rw [h]

theorem interval_between_of_le (s : Scale) (i j : Nat) (hij : i ≤ j) :
    interval_between s i j =
      ∑ k ∈ Finset.range (j - i), s.intervals.getD ((i + k) % s.num_notes) 0 := by
  have h1 : ¬ i > j := by omega
  show (List.range ((if i > j then i else j) - (if i > j then j else i))).foldl
      (fun acc k => acc + s.intervals.getD (((if i > j then j else i) + k) % s.num_notes) 0)
      0 = _
  rw [if_neg h1, if_neg h1,
    foldl_add_range (fun k => s.intervals.getD ((i + k) % s.num_notes) 0) (j - i) 0, zero_add]

theorem interval_between_gt (s : Scale) (i j : Nat) (hij : j < i) :
    interval_between s i j =
      ∑ k ∈ Finset.range (i - j), s.intervals.getD ((j + k) % s.num_notes) 0 := by
  show (List.range ((if i > j then i else j) - (if i > j then j else i))).foldl
      (fun acc k => acc + s.intervals.getD (((if i > j then j else i) + k) % s.num_notes) 0)
      0 = _
  rw [if_pos hij, if_pos hij,
    foldl_add_range (fun k => s.intervals.getD ((j + k) % s.num_notes) 0) (i - j) 0, zero_add]

/-! ### The claims -/

/-- C1: for every scale with non-empty strictly positive intervals and
every chord (with fuel covering each target), `add_chord` stores under
the chord's name exactly the set of root degrees of `[0, N)` accepted by
the spec's walk -- each target matched by a running sum that resets to
zero after a match, a root excluded exactly when a running sum strictly
exceeds its target before equalling it -- and returns true iff that set
is non-empty. -/
theorem C1_add_chord_correct (s : Scale) (c : Chord) (fuel : Nat)
    (h0 : s.intervals ≠ []) (hpos : ∀ x ∈ s.intervals, 0 < x)
    (hf : ∀ t ∈ c.intervals, t.toNat < fuel) :
    ∃ s' b, add_chord s c fuel = some (s', b) ∧
      s'.chords.lookup c.name = some (specRoots s c fuel) ∧
      (b = true ↔ specRoots s c fuel ≠ []) := by
  refine ⟨_, _, add_chord_eq s c fuel hpos hf, ?_, ?_⟩
  · show (dictSet s.chords c.name (codeRoots s c fuel)).lookup c.name = _
    rw [lookup_dictSet, codeRoots_eq_specRoots s c fuel hpos hf]
  · show (!(codeRoots s c fuel).isEmpty) = true ↔ _
    rw [codeRoots_eq_specRoots s c fuel hpos hf]
    simp [List.isEmpty_iff]

/-- C1 witness: the Major scale and Major chord instantiate C1. -/
theorem C1_add_chord_correct_witness :
    ∃ s' b, add_chord major_scale major_chord 100 = some (s', b) ∧
      s'.chords.lookup major_chord.name = some (specRoots major_scale major_chord 100) ∧
      (b = true ↔ specRoots major_scale major_chord 100 ≠ []) :=
  C1_add_chord_correct major_scale major_chord 100 (by decide) (by decide) (by decide)

/-- C10: for every scale with non-empty strictly positive intervals and
every chord, `add_chord` terminates: fuel bounded below by each target
plus one suffices, because each pass of the inner loop strictly increases
the accumulated interval until it equals or exceeds the target. -/
theorem C10_add_chord_terminates (s : Scale) (c : Chord) (fuel : Nat)
    (h0 : s.intervals ≠ []) (hpos : ∀ x ∈ s.intervals, 0 < x)
    (hf : ∀ t ∈ c.intervals, t.toNat < fuel) :
    (add_chord s c fuel).isSome := by
  rw [add_chord_eq s c fuel hpos hf]
  rfl

/-- C10 witness: the Major scale and Major chord instantiate C10. -/
theorem C10_add_chord_terminates_witness :
    (add_chord major_scale major_chord 100).isSome :=
  C10_add_chord_terminates major_scale major_chord 100 (by decide) (by decide) (by decide)

/-- C6: for every scale with non-empty strictly positive intervals and
every chord whose interval list begins with 0, `add_chord` records no
fitting root and returns false: the first comparison happens only after
one positive interval has been added, so a target of 0 is always strictly
exceeded. -/
theorem C6_zero_first_target (s : Scale) (c : Chord) (fuel : Nat)
    (h0 : s.intervals ≠ []) (hpos : ∀ x ∈ s.intervals, 0 < x)
    (hc : ∃ ts, c.intervals = 0 :: ts)
    (hf : ∀ t ∈ c.intervals, t.toNat < fuel) :
    ∃ s', add_chord s c fuel = some (s', false) ∧
      s'.chords.lookup c.name = some [] := by
  obtain ⟨ts, hts⟩ := hc
  obtain ⟨m, rfl⟩ : ∃ m, fuel = m + 1 := by
    have := hf 0 (by rw [hts]; exact List.mem_cons_self _ _)
    cases fuel with
    | zero => omega
    | succ m => exact ⟨m, rfl⟩
  have hfit : ∀ r, r < s.intervals.length →
      fitChordAt s.intervals (m + 1) c.intervals r false = some false := by
    intro r hr
    rw [hts]
    have hv : 0 < s.intervals.getD r 0 := by
      rw [List.getD_eq_getElem _ _ hr]
      exact hpos _ (List.getElem_mem hr)
    have hstep : fitLoop s.intervals 0 (m + 1) r 0 =
        some (false, (r + 1) % s.intervals.length) := by
      unfold fitLoop
      rw [if_neg (by omega), if_pos (by omega)]
    show fitChordAt s.intervals (m + 1) (0 :: ts) r false = some false
    unfold fitChordAt
    rw [hstep]
    show fitChordAt s.intervals (m + 1) ts ((r + 1) % s.intervals.length)
      (false || !false) = some false
    have hlt : (r + 1) % s.intervals.length < s.intervals.length :=
      Nat.mod_lt _ (by omega)
    have hsome : (fitChordAt s.intervals (m + 1) ts
        ((r + 1) % s.intervals.length) true).isSome :=
      fitChordAt_isSome s.intervals hpos (m + 1) ts _ true hlt
        (fun t ht => hf t (by rw [hts]; exact List.mem_cons_of_mem _ ht))
    rcases hfit2 : fitChordAt s.intervals (m + 1) ts
        ((r + 1) % s.intervals.length) true with - | b
    · rw [hfit2] at hsome; simp at hsome
    · show fitChordAt s.intervals (m + 1) ts ((r + 1) % s.intervals.length)
        true = some false
      rw [hfit2, fitChordAt_illegal s.intervals (m + 1) ts _ b hfit2]
  have hroots : codeRoots s c (m + 1) = [] := by
    unfold codeRoots
    rw [List.filter_eq_nil_iff]
    intro r hr
    rw [hfit r (List.mem_range.mp hr)]
    simp
  refine ⟨{ s with chords := dictSet s.chords c.name [] }, ?_, ?_⟩
  · rw [add_chord_eq s c (m + 1) hpos hf, hroots]
    rfl
  · show (dictSet s.chords c.name []).lookup c.name = _
    rw [lookup_dictSet]

/-- C6 witness: a chord whose target list begins with 0 never fits the
Major scale. -/
theorem C6_zero_first_target_witness :
    ∃ s', add_chord major_scale (Chord.mk "Zero" [0, 3]) 100 = some (s', false) ∧
      s'.chords.lookup (Chord.mk "Zero" [0, 3]).name = some [] :=
  C6_zero_first_target major_scale (Chord.mk "Zero" [0, 3]) 100 (by decide) (by decide)
    ⟨[3], rfl⟩ (by decide)

/-- C7: for every scale with non-empty intervals and every non-negative
i, walking one full cycle accumulates the whole interval sum; in
particular one octave of the Major scale spans 12 semitones. -/
theorem C7_full_cycle (s : Scale) (h0 : s.intervals ≠ []) (i : Nat) :
    interval_between s i (i + s.num_notes) = s.intervals.sum ∧
      interval_between major_scale 0 7 = 12 := by
  constructor
  · rw [interval_between_of_le s i (i + s.num_notes) (Nat.le_add_right i _),
      Nat.add_sub_cancel_left]
    show ∑ k ∈ Finset.range s.intervals.length,
      s.intervals.getD ((i + k) % s.intervals.length) 0 = s.intervals.sum
    exact rotate_getD_sum s.intervals h0 i
  · decide

/-- C7 witness: the Major scale at i = 5. -/
theorem C7_full_cycle_witness :
    interval_between major_scale 5 (5 + major_scale.num_notes) =
        major_scale.intervals.sum ∧
      interval_between major_scale 0 7 = 12 :=
  C7_full_cycle major_scale (by decide) 5

/-- C8: for every scale with non-empty intervals, `interval_between` is
symmetric in its two indices, and gives 0 when they are equal. -/
theorem C8_interval_between_symm (s : Scale) (h0 : s.intervals ≠ []) (i j : Nat) :
    interval_between s i j = interval_between s j i ∧
      (i = j → interval_between s i j = 0) := by
  constructor
  · rcases Nat.lt_trichotomy i j with h | h | h
    · rw [interval_between_of_le s i j h.le, interval_between_gt s j i h]
    · rw [h]
    · rw [interval_between_gt s i j h, interval_between_of_le s j i h.le]
  · intro h
    rw [h, interval_between_of_le s j j le_rfl]
    simp

/-- C8 witness: the Major scale at indices 2 and 9. -/
theorem C8_interval_between_symm_witness :
    interval_between major_scale 2 9 = interval_between major_scale 9 2 ∧
      (2 = 9 → interval_between major_scale 2 9 = 0) :=
  C8_interval_between_symm major_scale (by decide) 2 9

/-- C4: `has_chord` is stable: whatever its first call returns, a second
call on the (possibly memoized) resulting scale returns the same scale
and answer; and running `add_chord` twice yields the same stored root set
and the same return value both times. -/
theorem C4_memo_stable (s : Scale) (c : Chord) (fuel : Nat)
    (hs a1 a2 : Scale) (hb ab1 ab2 : Bool)
    (h1 : has_chord s c fuel = some (hs, hb))
    (h2 : add_chord s c fuel = some (a1, ab1))
    (h3 : add_chord a1 c fuel = some (a2, ab2)) :
    (∃ roots, hs.chords.lookup c.name = some roots ∧ (hb = true ↔ roots ≠ [])) ∧
      has_chord hs c fuel = some (hs, hb) ∧
      a2.chords.lookup c.name = a1.chords.lookup c.name ∧ ab2 = ab1 := by
  refine ⟨?_, ?_, ?_⟩
  · rcases hl : s.chords.lookup c.name with - | roots
    · rw [has_chord_of_none s c fuel hl] at h1
      obtain ⟨roots, -, hseq, hbeq⟩ := add_chord_inv s c fuel hs hb h1
      refine ⟨roots, by rw [hseq]; exact lookup_dictSet _ _ _, ?_⟩
      rw [hbeq]
      cases roots with
      | nil => simp
      | cons r rs => simp
    · rw [has_chord_lookup s c fuel roots hl] at h1
      simp only [Option.some.injEq, Prod.mk.injEq] at h1
      obtain ⟨rfl, rfl⟩ := h1
      refine ⟨roots, hl, ?_⟩
      cases roots with
      | nil => simp
      | cons r rs => simp
  · rcases hl : s.chords.lookup c.name with - | roots
    · rw [has_chord_of_none s c fuel hl] at h1
      obtain ⟨roots, -, hseq, hbeq⟩ := add_chord_inv s c fuel hs hb h1
      have hlk : hs.chords.lookup c.name = some roots := by
        rw [hseq]; exact lookup_dictSet _ _ _
      rw [has_chord_lookup hs c fuel roots hlk, hbeq]
      cases roots with
      | nil => simp
      | cons r rs => simp
    · rw [has_chord_lookup s c fuel roots hl] at h1
      simp only [Option.some.injEq, Prod.mk.injEq] at h1
      obtain ⟨rfl, rfl⟩ := h1
      exact has_chord_lookup s c fuel roots hl
  · obtain ⟨roots, ha, hseq, hbeq⟩ := add_chord_inv s c fuel a1 ab1 h2
    obtain ⟨roots2, ha2, hseq2, hbeq2⟩ := add_chord_inv a1 c fuel a2 ab2 h3
    have hiv : a1.intervals = s.intervals := by rw [hseq]
    have hnum : a1.num_notes = s.num_notes := by
      unfold Scale.num_notes; rw [hiv]
    rw [hiv, hnum, ha] at ha2
    obtain rfl : roots = roots2 := by injection ha2
    have l1 : a1.chords.lookup c.name = some roots := by
      rw [hseq]; exact lookup_dictSet _ _ _
    have l2 : a2.chords.lookup c.name = some roots := by
      rw [hseq2]; exact lookup_dictSet _ _ _
    rw [l1, l2, hbeq, hbeq2]
    exact ⟨rfl, rfl⟩

/-- The Major scale after memoizing the Major chord at roots 0, 3, 4. -/
def major_scale_major : Scale :=
  ⟨"Major", [2, 2, 1, 2, 2, 2, 1], [("Major", [0, 3, 4])]⟩

/-- The Major scale after memoizing the absent Augmented chord. -/
def major_scale_aug : Scale :=
  ⟨"Major", [2, 2, 1, 2, 2, 2, 1], [("Augmented", [])]⟩

/-- C4 witness: the Major scale and Major chord instantiate C4. -/
theorem C4_memo_stable_witness :
    (∃ roots, major_scale_major.chords.lookup major_chord.name = some roots ∧
      ((true : Bool) = true ↔ roots ≠ [])) ∧
      has_chord major_scale_major major_chord 100 = some (major_scale_major, true) ∧
      major_scale_major.chords.lookup major_chord.name =
        major_scale_major.chords.lookup major_chord.name ∧ (true : Bool) = true :=
  C4_memo_stable major_scale major_chord 100 major_scale_major major_scale_major
    major_scale_major true true true (by decide) (by decide) (by decide)

/-- C9: when either scale lacks the chord (its `has_chord` answer is
false), `chordal_relationships` emits no per-pair record and its
reachable fifths set is empty. -/
theorem C9_missing_chord (s1 s2 : Scale) (c : Chord) (fuel : Nat)
    (s1' s2' : Scale) (recs : List RelRecord) (fs : Finset Int)
    (h : chordal_relationships s1 s2 c fuel = some (s1', s2', recs, fs))
    (hmiss : (∃ x, has_chord s1 c fuel = some (x, false)) ∨
      (∃ x, has_chord s2 c fuel = some (x, false))) :
    recs = [] ∧ fs = ∅ := by
  unfold chordal_relationships at h
  rcases h1 : has_chord s1 c fuel with - | ⟨x1, b1⟩
  · rw [h1] at h
    replace h : (none : Option (Scale × Scale × List RelRecord × Finset Int)) =
      some (s1', s2', recs, fs) := h
    exact absurd h (by simp)
  · rw [h1] at h
    cases b1 with
    | false =>
        replace h : some (x1, s2, ([] : List RelRecord), (∅ : Finset Int)) =
          some (s1', s2', recs, fs) := h
        simp only [Option.some.injEq, Prod.mk.injEq] at h
        exact ⟨h.2.2.1.symm, h.2.2.2.symm⟩
    | true =>
        rcases h2 : has_chord s2 c fuel with - | ⟨x2, b2⟩
        · rw [h2] at h
          replace h : (none : Option (Scale × Scale × List RelRecord × Finset Int)) =
            some (s1', s2', recs, fs) := h
          exact absurd h (by simp)
        · rw [h2] at h
          cases b2 with
          | false =>
              replace h : some (x1, x2, ([] : List RelRecord), (∅ : Finset Int)) =
                some (s1', s2', recs, fs) := h
              simp only [Option.some.injEq, Prod.mk.injEq] at h
              exact ⟨h.2.2.1.symm, h.2.2.2.symm⟩
          | true =>
              rcases hmiss with ⟨x, hx⟩ | ⟨x, hx⟩
              · rw [h1] at hx; simp at hx
              · rw [h2] at hx; simp at hx

/-- C9 witness: the Augmented chord fits no root of the Major scale, so
the analysis of Major against Major via Augmented emits nothing. -/
theorem C9_missing_chord_witness :
    ([] : List RelRecord) = [] ∧ (∅ : Finset Int) = ∅ :=
  C9_missing_chord major_scale major_scale aug_chord 100 major_scale_aug major_scale
    [] ∅ (by decide) (Or.inl ⟨major_scale_aug, by decide⟩)

/-- Every record emitted by `chordal_relationships` comes from a root
pair (r1, r2): its roots are printed 1-based, its fifths figure is
`(key_distance * 7) mod 12` and its fourths figure
`(12 - fifths) mod 12`, with `key_distance` the difference of two
`interval_between` distances both taken on `scale_1` (the second using
`root_2`, found in `scale_2`); no semitones figure is part of the
record. -/
theorem emitted_record_formulas (s1 s2 : Scale) (c : Chord) (fuel : Nat) (rec : RelRecord)
    (hrec : rec ∈ recsOf (chordal_relationships s1 s2 c fuel)) :
    ∃ r1 r2, rec.root_1 = r1 + 1 ∧ rec.root_2 = r2 + 1 ∧
      rec.fifths =
        ((interval_between s1 0 r2 - interval_between s1 0 r1) * 7) % 12 ∧
      rec.fourths = (12 - rec.fifths) % 12 := by
  unfold recsOf chordal_relationships at hrec
  rcases h1 : has_chord s1 c fuel with - | ⟨x1, b1⟩
  · rw [h1] at hrec
    replace hrec : rec ∈ ([] : List RelRecord) := hrec
    simp at hrec
  · rw [h1] at hrec
    cases b1 with
    | false =>
        replace hrec : rec ∈ ([] : List RelRecord) := hrec
        simp at hrec
    | true =>
        rcases h2 : has_chord s2 c fuel with - | ⟨x2, b2⟩
        · rw [h2] at hrec
          replace hrec : rec ∈ ([] : List RelRecord) := hrec
          simp at hrec
        · rw [h2] at hrec
          cases b2 with
          | false =>
              replace hrec : rec ∈ ([] : List RelRecord) := hrec
              simp at hrec
          | true =>
              replace hrec : rec ∈ (((x1.chords.lookup c.name).getD []).flatMap
                  (fun r1 => ((x2.chords.lookup c.name).getD []).map
                    (fun r2 => mkRelArgs x1 x2 c r1 r2))).map renderRel := hrec
              rw [List.mem_map] at hrec
              obtain ⟨a, ha, rfl⟩ := hrec
              rw [List.mem_flatMap] at ha
              obtain ⟨r1, -, ha2⟩ := ha
              rw [List.mem_map] at ha2
              obtain ⟨r2, -, rfl⟩ := ha2
              have hx1 : x1.intervals = s1.intervals :=
                has_chord_intervals s1 c fuel x1 true h1
              refine ⟨r1, r2, rfl, rfl, ?_, ?_⟩
              · show ((interval_between x1 0 r2 - interval_between x1 0 r1) * 7) % 12 = _
                rw [interval_between_congr x1 s1 hx1 0 r2,
                  interval_between_congr x1 s1 hx1 0 r1]
              · exact rfl

/-- C2: the code computes semitones-right = `key_distance mod 12` and
passes it to the formatter, but the format string (harmony.py line 217)
has no placeholder for it, so the emitted record does not contain the
semitones figure.  At the root pair (0, 3) of the Major chord in the
Major scale against itself: the eighth format argument is 5, the record
actually emitted for that pair carries only the names, the 1-based roots
1 and 4, fifths 11 and fourths 1, and rendering is unchanged under ANY
value of the eighth argument -- the semitones value is dropped. -/
theorem C2_semitones_dropped :
    (mkRelArgs major_scale_major major_scale_major major_chord 0 3).semitones = 5 ∧
      renderRel (mkRelArgs major_scale_major major_scale_major major_chord 0 3) ∈
        recsOf (chordal_relationships major_scale major_scale major_chord 100) ∧
      renderRel (mkRelArgs major_scale_major major_scale_major major_chord 0 3) =
        RelRecord.mk "Major" "Major" "Major" 1 4 11 1 ∧
      ∀ z : Int,
        renderRel
            { mkRelArgs major_scale_major major_scale_major major_chord 0 3 with
              semitones := z } =
          RelRecord.mk "Major" "Major" "Major" 1 4 11 1 := by
  refine ⟨by decide, by decide, by decide, fun z => rfl⟩

/-- C3 counterexample: the reachable fifths set of
`chordal_relationships(major_scale, major_scale, major_chord)` is NOT the
set of pairwise differences among the fitting roots 0, 3, 4 scaled by 7
modulo 12 (that set is 0, 3, 4, 5, 7, 8, 9, while the computed set is
0, 1, 2, 10, 11). -/
theorem C3_roots_counterexample :
    ¬ ((0 : Int) ∈ fifthsSetOf (chordal_relationships major_scale major_scale major_chord 100) ∧
      fifthsSetOf (chordal_relationships major_scale major_scale major_chord 100) =
        pairwiseFifths [0, 3, 4]) := by
  decide

/-- C3 (amended): the reachable fifths set includes 0 and equals the set
of pairwise differences among the accumulated semitone distances
`interval_between(major_scale, 0, r)` of the fitting roots r = 0, 3, 4
(namely 0, 5, 7), scaled by 7 modulo 12: the set 0, 1, 2, 10, 11. -/
theorem C3_fifths_reachable :
    (0 : Int) ∈ fifthsSetOf (chordal_relationships major_scale major_scale major_chord 100) ∧
      fifthsSetOf (chordal_relationships major_scale major_scale major_chord 100) =
        pairwiseFifths ([0, 3, 4].map (fun r => interval_between major_scale 0 r)) ∧
      fifthsSetOf (chordal_relationships major_scale major_scale major_chord 100) =
        ({0, 1, 2, 10, 11} : Finset Int) := by
  refine ⟨by decide, by decide, by decide⟩

/-- C5: in the Major scale, the Major chord fits exactly at the root
degrees 0, 3 and 4, and the Diminished chord exactly at 6. -/
theorem C5_major_dim_roots :
    add_chord major_scale major_chord 100 = some (major_scale_major, true) ∧
      add_chord major_scale dim_chord 100 =
        some (Scale.mk "Major" [2, 2, 1, 2, 2, 2, 1] [("Diminished", [6])], true) := by
  refine ⟨by decide, by decide⟩
